import Mathlib

/-!
A Lean model of the orchestration logic of the CLEPP repository.

The repository has two source modules:

* `src/clep/embedding/kge.py` — `do_kge`, `_weighted_splitter`,
  `run_optimization`, `run_pipeline`: reshaping a patient-feature edgelist
  into train/validation/test edgelists, invoking external (pykeen)
  hyperparameter optimization and training, and reshaping the embedding
  matrix into a labeled table.
* `src/vp4p/classification/classify.py` — `do_classification`,
  `get_classifier`: selecting a classifier by name and extracting
  cross-validation scores.

External libraries are modelled by their documented contracts:

* `pandas.DataFrame.sample(frac=f)` draws a random subset of the rows
  without replacement; at `frac=1` it returns every row (in random order).
  We model it as an oracle function threaded with an abstract
  random-generator state, constrained by the propositions `SamplerSubset`
  (every sampled row comes from the pool) and `SamplerFull`
  (at fraction 1 the whole pool is sampled).
* `sklearn.model_selection.cross_validate(model, X, y, cv, scoring=ms)`
  returns a dict with keys `fit_time`, `score_time` and `test_<m>` for
  each metric `m` in `ms`.
* Python dict lookup (`d[k]`) and pandas column access (`df[col]`) raise
  `KeyError` when the key is absent; both are modelled as `Except`.

DataFrame rows carry their pandas index explicitly (`Row := Nat × Edge`),
because `_weighted_splitter` removes sampled rows by index.
-/

namespace CLEPP

/-- One row of the (source, relation, target) edgelist handed to
`_weighted_splitter` (the `label` column has been dropped by `do_kge`). -/
structure Edge where
  source : String
  relation : String
  target : String
deriving DecidableEq

/-- A DataFrame row: the pandas index paired with its edge values. -/
abbrev Row := Nat × Edge

/-- One row of the full edgelist given to `do_kge`: (source, relation,
target) plus the `label` cell, where `none` models a missing (NaN) value. -/
structure LRow where
  source : String
  relation : String
  target : String
  label : Option String
deriving DecidableEq

/-! ## Classifier selection (`get_classifier` in classify.py) -/

/-- The sklearn estimators `get_classifier` can construct, with the
keyword arguments the source passes to each constructor. -/
inductive SkClassifier where
  | logisticRegression (solver : String)
  | elasticNet (penalty : String) (l1_ratio : ℚ) (solver : String)
  | svc (gamma : String)
  | randomForest
deriving DecidableEq

/-- The exact message of the `ModuleNotFoundError` raised by
`get_classifier` for an unrecognized model name. -/
def model_not_found_msg : String :=
  "The entered model was not found. Please check the model that was inputted"

/-- `get_classifier(model_name)`: the if/elif chain of classify.py,
with a raised exception modelled as `Except.error`. -/
def get_classifier (model_name : String) : Except String SkClassifier :=
  if model_name = "logistic_regression" then
    Except.ok (SkClassifier.logisticRegression "lbfgs")
  else if model_name = "elastic_net" then
    Except.ok (SkClassifier.elasticNet "elasticnet" (1 / 2) "saga")
  else if model_name = "svm" then
    Except.ok (SkClassifier.svc "scale")
  else if model_name = "random_forrest" then
    Except.ok SkClassifier.randomForest
  else
    Except.error model_not_found_msg

/-- `containsSeq hay needle`: `needle` occurs as a contiguous subsequence
of `hay` (used to state whether an error message mentions a value). -/
def containsSeq : List Char → List Char → Bool
  | [], needle => needle.isEmpty
  | c :: t, needle => needle.isPrefixOf (c :: t) || containsSeq t needle

/-- `strMentions hay needle`: the string `needle` occurs inside `hay`. -/
def strMentions (hay needle : String) : Bool :=
  containsSeq hay.data needle.data

/-! ## Dict lookup of a list of keys (`model_config[k]`, `cv_results[k]`) -/

/-- Look up each key of `ks` in the dict `config`, left to right, failing
with a `KeyError` at the first absent key — the Python evaluation order of
a sequence of `d[k]` subscript expressions. -/
def lookupAll {V : Type} (config : List (String × V)) :
    List String → Except String (List V)
  | [] => Except.ok []
  | k :: ks =>
    match config.lookup k with
    | none => Except.error ("KeyError: " ++ k)
    | some v =>
      match lookupAll config ks with
      | Except.ok t => Except.ok (v :: t)
      | Except.error e => Except.error e

/-! ## Cross-validation score extraction (`do_classification`) -/

/-- The `scoring` list passed to `sklearn.cross_validate` by
`do_classification`. -/
def cross_validate_scoring : List String := ["roc_auc", "accuracy", "f1"]

/-- The dict returned by `sklearn.cross_validate` with the above scoring
list: keys `fit_time`, `score_time` and `test_<m>` for each requested
metric `m`; the per-fold score arrays themselves are abstracted as an
arbitrary assignment `scores`. -/
def cross_validate_results (scores : String → List ℚ) : List (String × List ℚ) :=
  ("fit_time", scores "fit_time") :: ("score_time", scores "score_time") ::
    cross_validate_scoring.map (fun m => ("test_" ++ m, scores ("test_" ++ m)))

/-- The `scoring_metrics` list that `do_classification` reads back out of
`cv_results`. -/
def scoring_metrics : List String := ["test_accuracy", "test_f1_micro", "test_roc_auc"]

/-- `do_classification(data, labels, model_name, ...)` up to the point
where it has read the per-metric score lists out of `cv_results` (the
subsequent seaborn plotting only consumes that data). -/
def do_classification (model_name : String) (scores : String → List ℚ) :
    Except String (List (List ℚ)) :=
  match get_classifier model_name with
  | Except.error e => Except.error e
  | Except.ok _ => lookupAll (cross_validate_results scores) scoring_metrics

/-! ## HPO configuration keys (`run_optimization`) -/

/-- The 28 `model_config` keys subscripted by `run_optimization`, in the
order the keyword arguments of the `hpo_pipeline` call are evaluated. -/
def hpo_config_keys : List String :=
  ["model", "model_kwargs", "model_kwargs_ranges", "loss_function",
   "loss_kwargs", "loss_kwargs_ranges", "regularizer", "optimizer",
   "optimizer_kwargs", "optimizer_kwargs_ranges", "training_loop",
   "training_loop_kwargs", "training_kwargs", "training_kwargs_ranges",
   "negative_sampler", "negative_sampler_kwargs",
   "negative_sampler_kwargs_ranges", "stopper", "stopper_kwargs",
   "evaluator", "evaluator_kwargs", "evaluation_kwargs", "n_trials",
   "timeout", "metric", "direction", "sampler", "pruner"]

/-- `run_optimization(dataset, model_config, out_dir)` up to the argument
evaluation of its `hpo_pipeline` call: every one of the 28 configuration
keys is subscripted before the external optimizer can run, so the result
is either the list of extracted values (then handed to pykeen) or the
`KeyError` of the first absent key. -/
def run_optimization {V : Type} (model_config : List (String × V)) :
    Except String (List V) :=
  lookupAll model_config hpo_config_keys

/-! ## Labeled-node mapping (`do_kge`, lines 39-41) -/

/-- `DataFrame.drop_duplicates('source')` with the default
`keep='first'`: keep the first row for each distinct `source` value.
`seen` accumulates the source values already kept. -/
def dropDupBySourceAux (seen : List String) : List LRow → List LRow
  | [] => []
  | r :: rs =>
    if r.source ∈ seen then dropDupBySourceAux seen rs
    else r :: dropDupBySourceAux (r.source :: seen) rs

/-- `unique_nodes = edgelist[~edgelist['label'].isna()].drop_duplicates('source')`:
the rows with a non-missing label, deduplicated by source, first
occurrence kept. -/
def unique_nodes (rows : List LRow) : List LRow :=
  dropDupBySourceAux [] (rows.filter fun r => r.label.isSome)

/-- `label_mapping = {patient: label for patient, label in
zip(unique_nodes['source'], unique_nodes['label'])}` as an association
list; the `getD` default is unreachable because every row of
`unique_nodes` has a non-missing label. -/
def label_mapping (rows : List LRow) : List (String × String) :=
  (unique_nodes rows).map fun r => (r.source, r.label.getD "")

/-! ## Patient filtering and label attachment (`do_kge`, lines 83-88) -/

/-- The loop `for index in embedding.index:
embedding.at[index, 'label'] = label_mapping[index]`: attach the mapped
label to every index, raising `KeyError` at the first index absent from
the dict. -/
def attach_labels (mapping : List (String × String)) :
    List String → Except String (List (String × String))
  | [] => Except.ok []
  | idx :: rest =>
    match mapping.lookup idx with
    | none => Except.error ("KeyError: " ++ idx)
    | some lab =>
      match attach_labels mapping rest with
      | Except.ok t => Except.ok ((idx, lab) :: t)
      | Except.error e => Except.error e

/-- The `return_patients` branch of `do_kge`: restrict the embedding
index to the names occurring in the design table's `FileName` column
(`embedding.index.isin(design_norm_df['FileName'])`), then attach labels
from the labeled-node mapping. -/
def return_patients_step (fileNames : List String)
    (mapping : List (String × String)) (embIndex : List String) :
    Except String (List (String × String)) :=
  attach_labels mapping (embIndex.filter fun i => fileNames.contains i)

/-! ## The weighted splitter (`_weighted_splitter`, kge.py lines 93-130)

The splitter calls `DataFrame.sample(frac=...)`, which draws from the
global numpy random state.  We model the random state abstractly
(`RState`) and the sampling call as an oracle consuming it; the
propositions `SamplerSubset` and `SamplerFull` state the two facts the
pandas contract guarantees: a sample is drawn from the pool it is taken
from, and `frac=1` samples the entire pool. -/

/-- Abstract state of the (seedable) global random generator. -/
abbrev RState := Nat

/-- The sampling oracle: `sampler s pool f` models
`pool.sample(frac=f)` run with generator state `s`, returning the drawn
rows and the advanced state. -/
abbrev Sampler := RState → List Row → ℚ → List Row × RState

/-- pandas contract: every sampled row comes from the pool. -/
def SamplerSubset (sampler : Sampler) : Prop :=
  ∀ (s : RState) (pool : List Row) (f : ℚ),
    ∀ r ∈ (sampler s pool f).1, r ∈ pool

/-- pandas contract: `sample(frac=1)` draws every row of the pool
(`n = round(1 * len(pool)) = len(pool)`, sampling without replacement). -/
def SamplerFull (sampler : Sampler) : Prop :=
  ∀ (s : RState) (pool : List Row), ∀ r ∈ pool, r ∈ (sampler s pool 1).1

/-- `DataFrame.drop_duplicates()` with default `keep='first'`: keep the
first row for each distinct (source, relation, target) value; pandas
indices are untouched.  `seen` accumulates edge values already kept. -/
def dropDupAux (seen : List Edge) : List Row → List Row
  | [] => []
  | r :: rs =>
    if r.2 ∈ seen then dropDupAux seen rs
    else r :: dropDupAux (r.2 :: seen) rs

/-- `data = edgelist.drop_duplicates().copy()`. -/
def dropDuplicates (l : List Row) : List Row := dropDupAux [] l

/-- `Series.unique()`: distinct values in order of first appearance. -/
def uniqueFirstAux (seen : List String) : List String → List String
  | [] => []
  | x :: xs =>
    if x ∈ seen then uniqueFirstAux seen xs
    else x :: uniqueFirstAux (x :: seen) xs

/-- `unique_relations = sorted(edgelist['relation'].unique())`. -/
def unique_relations (edgelist : List Row) : List String :=
  List.insertionSort (fun a b => a ≤ b)
    (uniqueFirstAux [] (edgelist.map fun r => r.2.relation))

/-- One iteration of the inner loop of `_weighted_splitter`:
`temp = data[data['relation'] == relation].sample(frac=frac_size)` and
`data = data[~data.index.isin(temp.index)]`.  Returns the sampled frame,
the new `data`, and the advanced generator state. -/
def relStep (sampler : Sampler) (frac : ℚ) (rel : String)
    (data : List Row) (s : RState) : List Row × List Row × RState :=
  let temp := (sampler s (data.filter fun r => r.2.relation == rel) frac).1
  (temp,
    data.filter fun r => decide (r.1 ∉ temp.map Prod.fst),
    (sampler s (data.filter fun r => r.2.relation == rel) frac).2)

/-- One round of the outer loop of `_weighted_splitter` (one entry of
`[train_size, validation_size, test_size]`): iterate `relStep` over the
relation types, concatenating the sampled frames
(`pd.concat(frames, ...)` — membership-wise, the identity on the
accumulated rows). -/
def roundStep (sampler : Sampler) (frac : ℚ) :
    List String → List Row → RState → List Row × List Row × RState
  | [], data, s => ([], data, s)
  | rel :: rest, data, s =>
    ((relStep sampler frac rel data s).1 ++
        (roundStep sampler frac rest (relStep sampler frac rel data s).2.1
          (relStep sampler frac rel data s).2.2).1,
      (roundStep sampler frac rest (relStep sampler frac rel data s).2.1
        (relStep sampler frac rel data s).2.2).2)

/-- `_weighted_splitter(edgelist, train_size, validation_size)`:
renormalize the validation fraction to `validation_size /
(1 - train_size)`, fix the test fraction at 1, deduplicate the input,
and run the three sampling rounds over the sorted relation types. -/
def weighted_splitter (sampler : Sampler) (s0 : RState)
    (edgelist : List Row) (train_size validation_size : ℚ) :
    List Row × List Row × List Row :=
  let validation_frac := validation_size / (1 - train_size)
  let test_size : ℚ := 1
  let unique_rels := unique_relations edgelist
  let data := dropDuplicates edgelist
  let round1 := roundStep sampler train_size unique_rels data s0
  let round2 := roundStep sampler validation_frac unique_rels round1.2.1 round1.2.2
  let round3 := roundStep sampler test_size unique_rels round2.2.1 round2.2.2
  (round1.1, round2.1, round3.1)

/-- A reference instantiation of the sampling oracle: draw the whole
pool at every fraction (satisfies both pandas contract propositions). -/
def fullSampler : Sampler := fun s pool _ => (pool, s)

/-- A second reference instantiation: draw nothing unless the fraction
is 1, then draw the whole pool. -/
def lazySampler : Sampler := fun s pool f => (if f = 1 then pool else [], s)

/-- A concrete two-relation edgelist used to instantiate the splitter
theorems. -/
def demoEdges : List Row :=
  [(0, Edge.mk "a" "r1" "b"), (1, Edge.mk "c" "r2" "d")]

/-! ## Embedding table shape (`do_kge`, lines 75-81) -/

/-- `embedding_columns = [f'Component_{i}' for i in range(1, k + 1)]`
where `k = embedding_values.shape[1]`. -/
def embedding_columns (k : Nat) : List String :=
  (List.range k).map fun i => "Component_" ++ toString (i + 1)

/-- The internal index `entity_to_id[x]` assigned to entity name `x` by
the trained model's triples factory (`entity_to_id` is a dict whose keys
are exactly the entity names, so the `getD` default is unreachable). -/
def entityIdOf (e2i : List (String × Nat)) (x : String) : Nat :=
  (e2i.lookup x).getD 0

/-- `embedding_index = sorted(node_list, key=lambda x:
best_model.triples_factory.entity_to_id[x])` where
`node_list = list(entity_to_id.keys())`; Python's stable sort is
modelled by stable insertion sort. -/
def embedding_index (e2i : List (String × Nat)) : List String :=
  List.insertionSort (fun a b => entityIdOf e2i a ≤ entityIdOf e2i b)
    (e2i.map Prod.fst)

/-! ## The `label` column requirement of `do_kge` (lines 39-43) -/

/-- The edgelist DataFrame handed to `do_kge`: its rows plus whether the
optional `label` column is present at all.  When `hasLabel = false` the
per-row `label` field is irrelevant (the column does not exist) and any
column access `edgelist['label']` raises `KeyError`. -/
structure KgeFrame where
  hasLabel : Bool
  rows : List LRow

/-- `edgelist.drop(columns='label')` followed by the implicit DataFrame
indexing: the (source, relation, target) rows with their pandas
positions. -/
def toEdges (rows : List LRow) : List Row :=
  (rows.map fun r => Edge.mk r.source r.relation r.target).enum

/-- The opening steps of `do_kge` (lines 39-43): build the labeled-node
mapping from `edgelist[~edgelist['label'].isna()]` and drop the label
column.  Both expressions subscript the `label` column, so a frame
without that column raises `KeyError` before anything else happens. -/
def do_kge_front (f : KgeFrame) :
    Except String (List (String × String) × List Row) :=
  if f.hasLabel then Except.ok (label_mapping f.rows, toEdges f.rows)
  else Except.error "KeyError: label"

/-! ## Theorems: classifier selection and configuration keys -/

/-- Helper: if some key of `ks` is absent from `config`, `lookupAll`
returns a `KeyError`. -/
theorem lookupAll_missing {V : Type} (config : List (String × V)) :
    ∀ ks : List String, (∃ k ∈ ks, config.lookup k = none) →
      ∃ msg, lookupAll config ks = Except.error msg := by
  intro ks
  induction ks with
  | nil => rintro ⟨k, hk, _⟩; cases hk
  | cons k ks ih =>
    rintro ⟨k0, hk0, hnone⟩
    rcases List.mem_cons.mp hk0 with rfl | hmem
    · exact ⟨"KeyError: " ++ k0, by simp [lookupAll, hnone]⟩
    · cases hcfg : config.lookup k with
      | none => exact ⟨"KeyError: " ++ k, by simp [lookupAll, hcfg]⟩
      | some v =>
        obtain ⟨msg, hmsg⟩ := ih ⟨k0, hmem, hnone⟩
        exact ⟨msg, by simp [lookupAll, hcfg, hmsg]⟩

/-- Helper: if every key of `ks` is present in `config`, `lookupAll`
succeeds. -/
theorem lookupAll_present {V : Type} (config : List (String × V)) :
    ∀ ks : List String, (∀ k ∈ ks, (config.lookup k).isSome) →
      ∃ vals, lookupAll config ks = Except.ok vals := by
  intro ks
  induction ks with
  | nil => intro _; exact ⟨[], rfl⟩
  | cons k ks ih =>
    intro h
    cases hcfg : config.lookup k with
    | none =>
      have := h k (List.mem_cons_self k ks)
      rw [hcfg] at this
      cases this
    | some v =>
      obtain ⟨vals, hvals⟩ := ih (fun k2 hk2 => h k2 (List.mem_cons_of_mem k hk2))
      exact ⟨v :: vals, by simp [lookupAll, hcfg, hvals]⟩

/-- C10: `run_optimization` treats every one of the 28 recognized
`model_config` keys as mandatory: a configuration missing any of them
makes the call fail with a key-lookup error (before the external
optimizer is invoked), while a configuration holding all 28 keys reaches
the optimizer call with the extracted values. -/
theorem run_optimization_requires_all_keys {V : Type}
    (model_config : List (String × V))
    (h : ∃ k ∈ hpo_config_keys, model_config.lookup k = none) :
    ∃ msg, run_optimization model_config = Except.error msg :=
  lookupAll_missing model_config hpo_config_keys h

/-- Witness for C10: the empty configuration is missing the key
`model`, and `run_optimization` on it indeed fails. -/
theorem run_optimization_requires_all_keys_witness :
    (∃ k ∈ hpo_config_keys, (([] : List (String × Nat)).lookup k = none)) ∧
      ∃ msg, run_optimization ([] : List (String × Nat)) = Except.error msg :=
  ⟨⟨"model", by decide, rfl⟩,
    run_optimization_requires_all_keys ([] : List (String × Nat))
      ⟨"model", by decide, rfl⟩⟩

/-- C5 counterexample: for the unrecognized name `not_a_model`,
`get_classifier` raises the fixed message
`The entered model was not found. Please check the model that was
inputted`, and that message does not mention (contain) the offending
model name, contrary to the claim that the error identifies the value. -/
theorem get_classifier_message_counterexample :
    get_classifier "not_a_model" = Except.error model_not_found_msg ∧
      strMentions model_not_found_msg "not_a_model" = false := by
  constructor
  · rfl
  · decide

/-- C5 (amended): `get_classifier` returns a classifier for every name in
`{logistic_regression, elastic_net, svm, random_forrest}`, and for every
name outside this set it raises the fixed "model not found" message —
no silent default — but the message does not include the offending name. -/
theorem get_classifier_amended_spec :
    (∀ name : String,
        name ∉ ["logistic_regression", "elastic_net", "svm", "random_forrest"] →
          get_classifier name = Except.error model_not_found_msg) ∧
      (∀ name ∈ ["logistic_regression", "elastic_net", "svm", "random_forrest"],
        ∃ c, get_classifier name = Except.ok c) := by
  constructor
  · intro name hname
    simp only [List.mem_cons, List.not_mem_nil, or_false, not_or] at hname
    obtain ⟨h1, h2, h3, h4⟩ := hname
    simp [get_classifier, h1, h2, h3, h4]
  · intro name hname
    rcases List.mem_cons.mp hname with rfl | hname
    · exact ⟨SkClassifier.logisticRegression "lbfgs", rfl⟩
    rcases List.mem_cons.mp hname with rfl | hname
    · exact ⟨SkClassifier.elasticNet "elasticnet" (1 / 2) "saga", rfl⟩
    rcases List.mem_cons.mp hname with rfl | hname
    · exact ⟨SkClassifier.svc "scale", rfl⟩
    rcases List.mem_cons.mp hname with rfl | hname
    · exact ⟨SkClassifier.randomForest, rfl⟩
    cases hname

/-- Witness for C5 (amended): at the concrete unrecognized name `foo`
the error branch fires, and at `svm` a classifier is returned. -/
theorem get_classifier_amended_spec_witness :
    get_classifier "foo" = Except.error model_not_found_msg ∧
      ∃ c, get_classifier "svm" = Except.ok c :=
  ⟨get_classifier_amended_spec.1 "foo" (by decide),
    get_classifier_amended_spec.2 "svm" (by decide)⟩

/-- C6 (code bug): `do_classification` requests the sklearn scoring
metrics `roc_auc`, `accuracy`, `f1`, whose result keys are
`test_roc_auc`, `test_accuracy`, `test_f1` — but then reads the key
`test_f1_micro`, which is never produced. Hence for `model_name = svm`
(and any per-fold scores the external library returns) the call raises
`KeyError: test_f1_micro` instead of returning the cross-validation
results. -/
theorem do_classification_f1_micro_keyerror (scores : String → List ℚ) :
    do_classification "svm" scores = Except.error "KeyError: test_f1_micro" := rfl

/-! ## Theorems: labeled-node mapping -/

/-- Helper: every row kept by source deduplication comes from the input
and its source has not been seen before. -/
theorem mem_dropDupBySourceAux (seen : List String) :
    ∀ l : List LRow, ∀ r ∈ dropDupBySourceAux seen l, r ∈ l ∧ r.source ∉ seen := by
  intro l
  induction l generalizing seen with
  | nil => intro r hr; cases hr
  | cons a l ih =>
    intro r hr
    by_cases ha : a.source ∈ seen
    · simp only [dropDupBySourceAux, if_pos ha] at hr
      obtain ⟨h1, h2⟩ := ih seen r hr
      exact ⟨List.mem_cons_of_mem a h1, h2⟩
    · simp only [dropDupBySourceAux, if_neg ha] at hr
      rcases List.mem_cons.mp hr with rfl | hr
      · exact ⟨List.mem_cons_self r l, ha⟩
      · obtain ⟨h1, h2⟩ := ih (a.source :: seen) r hr
        exact ⟨List.mem_cons_of_mem a h1,
          fun hmem => h2 (List.mem_cons_of_mem a.source hmem)⟩

/-- Helper: after source deduplication the source values are distinct. -/
theorem nodup_sources_dropDupBySourceAux (seen : List String) :
    ∀ l : List LRow,
      ((dropDupBySourceAux seen l).map (fun r => r.source)).Nodup := by
  intro l
  induction l generalizing seen with
  | nil => exact List.nodup_nil
  | cons a l ih =>
    by_cases ha : a.source ∈ seen
    · simpa only [dropDupBySourceAux, if_pos ha] using ih seen
    · simp only [dropDupBySourceAux, if_neg ha, List.map_cons, List.nodup_cons]
      refine ⟨?_, ih (a.source :: seen)⟩
      intro hmem
      obtain ⟨r, hr, hsrc⟩ := List.mem_map.mp hmem
      have := (mem_dropDupBySourceAux (a.source :: seen) l r hr).2
      exact this (hsrc ▸ List.mem_cons_self a.source seen)

/-- Helper: source deduplication does not change the first row found for
a source that has not been seen yet. -/
theorem find?_dropDupBySourceAux (s : String) :
    ∀ (seen : List String) (l : List LRow), s ∉ seen →
      (dropDupBySourceAux seen l).find? (fun r => r.source == s) =
        l.find? (fun r => r.source == s) := by
  intro seen l
  induction l generalizing seen with
  | nil => intro _; rfl
  | cons a l ih =>
    intro hs
    by_cases ha : a.source ∈ seen
    · have hne : (a.source == s) = false := by
        apply beq_false_of_ne
        intro h
        exact hs (h ▸ ha)
      simp only [dropDupBySourceAux, if_pos ha]
      rw [ih seen hs, List.find?_cons, hne]
    · simp only [dropDupBySourceAux, if_neg ha]
      by_cases heq : a.source = s
      · rw [List.find?_cons, List.find?_cons, beq_iff_eq.mpr heq]
      · have hne : (a.source == s) = false := beq_false_of_ne heq
        rw [List.find?_cons, List.find?_cons, hne, ih]
        intro hmem
        rcases List.mem_cons.mp hmem with h | h
        · exact heq h.symm
        · exact hs h

/-- Helper: association-list lookup over rows keyed by source is the
first row with that source. -/
theorem lookup_map_source (f : LRow → String) (s : String) :
    ∀ l : List LRow,
      (l.map (fun r => (r.source, f r))).lookup s =
        (l.find? (fun r => r.source == s)).map f := by
  intro l
  induction l with
  | nil => rfl
  | cons a l ih =>
    by_cases heq : s = a.source
    · simp only [List.map_cons, List.lookup_cons, List.find?_cons,
        beq_iff_eq.mpr heq, beq_iff_eq.mpr heq.symm]
      rfl
    · have h1 : (s == a.source) = false := beq_false_of_ne heq
      have h2 : (a.source == s) = false := beq_false_of_ne (Ne.symm heq)
      simp only [List.map_cons, List.lookup_cons, List.find?_cons, h1, h2]
      exact ih

/-- Helper: `find?` on a filtered list is `find?` with the conjunction of
the predicates. -/
theorem find?_filter_eq {α : Type} (p q : α → Bool) :
    ∀ l : List α, (l.filter p).find? q = l.find? (fun a => p a && q a) := by
  intro l
  induction l with
  | nil => rfl
  | cons a l ih =>
    by_cases hp : p a
    · by_cases hq : q a
      · simp [List.filter_cons, hp, List.find?_cons, hq]
      · simp only [List.filter_cons, if_pos hp, List.find?_cons, hq,
          Bool.and_false]
        simp [hp, hq, ih]
    · simp only [List.filter_cons, hp, Bool.false_and, if_neg]
      simp only [List.find?_cons]
      simp [hp, ih]

/-- C3: the labeled-node mapping built by `do_kge` has exactly one entry
per distinct `source` among rows with a non-missing `label` (keys are
distinct, and a key is present exactly when such a row exists), and the
stored label is that of the first-encountered such row. -/
theorem label_mapping_first_wins_spec (rows : List LRow) :
    ((label_mapping rows).map Prod.fst).Nodup ∧
      (∀ s : String,
        (∃ v, (label_mapping rows).lookup s = some v) ↔
          ∃ r ∈ rows, r.source = s ∧ r.label.isSome) ∧
      (∀ s : String, ∀ r : LRow,
        rows.find? (fun r2 => r2.label.isSome && (r2.source == s)) = some r →
          (label_mapping rows).lookup s = some (r.label.getD "")) := by
  have hlookup : ∀ s : String,
      (label_mapping rows).lookup s =
        (rows.find? (fun r2 => r2.label.isSome && (r2.source == s))).map
          (fun r => r.label.getD "") := by
    intro s
    unfold label_mapping unique_nodes
    rw [lookup_map_source, find?_dropDupBySourceAux s [] _ (List.not_mem_nil s),
      find?_filter_eq]
  refine ⟨?_, ?_, ?_⟩
  · have : (label_mapping rows).map Prod.fst =
        (unique_nodes rows).map (fun r => r.source) := by
      unfold label_mapping
      rw [List.map_map]
      rfl
    rw [this]
    exact nodup_sources_dropDupBySourceAux [] _
  · intro s
    rw [hlookup s]
    constructor
    · rintro ⟨v, hv⟩
      obtain ⟨r, hr, -⟩ := Option.map_eq_some'.mp hv
      have hmem := List.mem_of_find?_eq_some hr
      have hpred := List.find?_some hr
      simp only [Bool.and_eq_true, beq_iff_eq] at hpred
      exact ⟨r, hmem, hpred.2, hpred.1⟩
    · rintro ⟨r, hr, hsrc, hlab⟩
      have : ∃ x, x ∈ rows ∧ (fun r2 => r2.label.isSome && (r2.source == s)) x := by
        exact ⟨r, hr, by simp [hsrc, hlab]⟩
      obtain ⟨r2, hfind⟩ := Option.isSome_iff_exists.mp (List.find?_isSome.mpr this)
      exact ⟨r2.label.getD "", by rw [hfind]; rfl⟩
  · intro s r hfind
    rw [hlookup s, hfind]
    rfl

/-- Witness for C3: on a concrete edgelist where source `p1` occurs
twice with conflicting labels `A` then `B`, the mapping stores `A`. -/
theorem label_mapping_first_wins_spec_witness :
    (label_mapping
      [LRow.mk "p1" "r" "t" (some "A"), LRow.mk "p1" "r" "t" (some "B"),
       LRow.mk "g1" "r" "t" none]).lookup "p1" = some "A" :=
  (label_mapping_first_wins_spec
    [LRow.mk "p1" "r" "t" (some "A"), LRow.mk "p1" "r" "t" (some "B"),
     LRow.mk "g1" "r" "t" none]).2.2 "p1"
    (LRow.mk "p1" "r" "t" (some "A")) rfl

/-! ## Theorems: patient filtering and label attachment -/

/-- Helper: when every index is present in the mapping, `attach_labels`
succeeds and labels each index with its mapped value. -/
theorem attach_labels_ok (mapping : List (String × String)) :
    ∀ idxs : List String, (∀ i ∈ idxs, (mapping.lookup i).isSome) →
      attach_labels mapping idxs =
        Except.ok (idxs.map fun i => (i, (mapping.lookup i).getD "")) := by
  intro idxs
  induction idxs with
  | nil => intro _; rfl
  | cons idx rest ih =>
    intro h
    obtain ⟨lab, hlab⟩ := Option.isSome_iff_exists.mp
      (h idx (List.mem_cons_self idx rest))
    have hrest := ih (fun i hi => h i (List.mem_cons_of_mem idx hi))
    simp [attach_labels, hlab, hrest]

/-- Helper: an index absent from the mapping makes `attach_labels` fail. -/
theorem attach_labels_error (mapping : List (String × String)) :
    ∀ idxs : List String, ∀ i ∈ idxs, mapping.lookup i = none →
      ∃ msg, attach_labels mapping idxs = Except.error msg := by
  intro idxs
  induction idxs with
  | nil => intro i hi; cases hi
  | cons idx rest ih =>
    intro i hi hnone
    cases hlook : mapping.lookup idx with
    | none => exact ⟨"KeyError: " ++ idx, by simp [attach_labels, hlook]⟩
    | some lab =>
      rcases List.mem_cons.mp hi with rfl | hmem
      · rw [hnone] at hlook; cases hlook
      · obtain ⟨msg, hmsg⟩ := ih i hmem hnone
        exact ⟨msg, by simp [attach_labels, hlook, hmsg]⟩

/-- C9: with `return_patients` set, `do_kge` keeps exactly the embedding
indices occurring in the design table's `FileName` column; if every
retained index is in the labeled-node mapping the rows come back with
their mapped labels, and any retained index absent from the mapping makes
the operation fail with an explicit error instead of producing a missing
label value. -/
theorem return_patients_label_lookup_spec (fileNames : List String)
    (mapping : List (String × String)) (embIndex : List String) :
    (∀ i : String,
        i ∈ embIndex.filter (fun j => fileNames.contains j) ↔
          (i ∈ embIndex ∧ i ∈ fileNames)) ∧
      ((∀ i ∈ embIndex.filter (fun j => fileNames.contains j),
          (mapping.lookup i).isSome) →
        return_patients_step fileNames mapping embIndex =
          Except.ok ((embIndex.filter (fun j => fileNames.contains j)).map
            fun i => (i, (mapping.lookup i).getD ""))) ∧
      (∀ i ∈ embIndex.filter (fun j => fileNames.contains j),
        mapping.lookup i = none →
          ∃ msg, return_patients_step fileNames mapping embIndex =
            Except.error msg) := by
  refine ⟨?_, ?_, ?_⟩
  · intro i
    simp [List.mem_filter, List.elem_iff]
  · intro h
    exact attach_labels_ok mapping _ h
  · intro i hi hnone
    exact attach_labels_error mapping _ i hi hnone

/-- Witness for C9: with design names `{p1}`, an empty labeled-node
mapping and embedding index `[p1, g1]`, the retained index `p1` has no
label and the operation fails. -/
theorem return_patients_label_lookup_spec_witness :
    ∃ msg, return_patients_step ["p1"] [] ["p1", "g1"] = Except.error msg :=
  (return_patients_label_lookup_spec ["p1"] [] ["p1", "g1"]).2.2 "p1"
    (by decide) rfl

/-! ## Theorems: embedding table shape -/

/-- C7: the embedding table index of `do_kge` is exactly the model's
entity names ordered by the internal name-to-index assignment (a
permutation of the names, sorted by `entity_to_id`), and the column list
is `Component_1 .. Component_k` for embedding dimensionality `k`. -/
theorem embedding_index_sorted_components_spec
    (e2i : List (String × Nat)) (k : Nat) :
    (embedding_index e2i).Perm (e2i.map Prod.fst) ∧
      List.Sorted (fun a b => entityIdOf e2i a ≤ entityIdOf e2i b)
        (embedding_index e2i) ∧
      (embedding_columns k).length = k ∧
      (∀ i : Nat, ∀ h : i < (embedding_columns k).length,
        (embedding_columns k)[i] = "Component_" ++ toString (i + 1)) := by
  refine ⟨List.perm_insertionSort _ _, ?_, by simp [embedding_columns], ?_⟩
  · haveI : IsTotal String (fun a b => entityIdOf e2i a ≤ entityIdOf e2i b) :=
      ⟨fun a b => Nat.le_total _ _⟩
    haveI : IsTrans String (fun a b => entityIdOf e2i a ≤ entityIdOf e2i b) :=
      ⟨fun _ _ _ => Nat.le_trans⟩
    exact List.sorted_insertionSort _ _
  · intro i h
    simp [embedding_columns]

/-- Witness for C7: at the concrete assignment `{b ↦ 1, a ↦ 0}` and
dimensionality 2, the index is a permutation of `[b, a]` sorted by the
assigned ids and the columns have length 2. -/
theorem embedding_index_sorted_components_spec_witness :
    (embedding_index [("b", 1), ("a", 0)]).Perm ["b", "a"] ∧
      List.Sorted
        (fun a b =>
          entityIdOf [("b", 1), ("a", 0)] a ≤ entityIdOf [("b", 1), ("a", 0)] b)
        (embedding_index [("b", 1), ("a", 0)]) ∧
      (embedding_columns 2).length = 2 :=
  ⟨(embedding_index_sorted_components_spec [("b", 1), ("a", 0)] 2).1,
    (embedding_index_sorted_components_spec [("b", 1), ("a", 0)] 2).2.1,
    (embedding_index_sorted_components_spec [("b", 1), ("a", 0)] 2).2.2.1⟩

/-! ## Theorems: the label column requirement -/

/-- C8 counterexample: on a concrete edgelist with only the source,
relation and target columns (no `label` column), `do_kge` fails with a
key-lookup error at the `edgelist['label']` access — contrary to the
claim that the label column is optional. -/
theorem do_kge_missing_label_counterexample :
    do_kge_front (KgeFrame.mk false [LRow.mk "a" "r" "b" none]) =
      Except.error "KeyError: label" := rfl

/-- C8 (amended): the `label` column is mandatory for `do_kge`: an
edgelist without it makes the operation fail with a key-lookup error at
the first `label` access, while an edgelist carrying the column (its
values may all be missing) passes that step. -/
theorem do_kge_requires_label_spec (f : KgeFrame) :
    (f.hasLabel = false → do_kge_front f = Except.error "KeyError: label") ∧
      (f.hasLabel = true →
        do_kge_front f = Except.ok (label_mapping f.rows, toEdges f.rows)) := by
  constructor <;> intro h <;> simp [do_kge_front, h]

/-- Witness for C8 (amended): a frame carrying the label column passes
the label-extraction step. -/
theorem do_kge_requires_label_spec_witness :
    do_kge_front (KgeFrame.mk true []) =
      Except.ok (label_mapping [], toEdges []) :=
  (do_kge_requires_label_spec (KgeFrame.mk true [])).2 rfl

/-! ## Lemmas about one relation step of the splitter -/

/-- Every row of the sampled frame comes from `data` and has the
relation being sampled. -/
theorem relStep_frame_mem {sampler : Sampler} (hsub : SamplerSubset sampler)
    (frac : ℚ) (rel : String) (data : List Row) (s : RState) :
    ∀ r ∈ (relStep sampler frac rel data s).1, r ∈ data ∧ r.2.relation = rel := by
  intro r hr
  have hpool := hsub s (data.filter fun r2 => r2.2.relation == rel) frac r hr
  have := List.mem_filter.mp hpool
  exact ⟨this.1, by simpa using this.2⟩

/-- The new `data` is the old one filtered by index, hence a sublist. -/
theorem relStep_rem_sublist (sampler : Sampler) (frac : ℚ) (rel : String)
    (data : List Row) (s : RState) :
    (relStep sampler frac rel data s).2.1.Sublist data :=
  List.filter_sublist data

/-- A sampled row is removed from the new `data`. -/
theorem relStep_frame_not_rem (sampler : Sampler) (frac : ℚ) (rel : String)
    (data : List Row) (s : RState) :
    ∀ r ∈ (relStep sampler frac rel data s).1,
      r ∉ (relStep sampler frac rel data s).2.1 := by
  intro r hr hrem
  have hcond := (List.mem_filter.mp hrem).2
  rw [decide_eq_true_eq] at hcond
  exact hcond (List.mem_map_of_mem Prod.fst hr)

/-- With distinct pandas indices, a row of `data` that was not sampled
survives into the new `data` (removal is by index). -/
theorem relStep_not_frame_rem {sampler : Sampler} (hsub : SamplerSubset sampler)
    (frac : ℚ) (rel : String) (data : List Row) (s : RState)
    (hidx : (data.map Prod.fst).Nodup) :
    ∀ r ∈ data, r ∉ (relStep sampler frac rel data s).1 →
      r ∈ (relStep sampler frac rel data s).2.1 := by
  intro r hr hnot
  apply List.mem_filter.mpr
  refine ⟨hr, decide_eq_true ?_⟩
  intro hmem
  obtain ⟨t, ht, hts⟩ := List.mem_map.mp hmem
  have htd := (relStep_frame_mem hsub frac rel data s t ht).1
  have : t = r := List.inj_on_of_nodup_map hidx htd hr hts
  exact hnot (this ▸ ht)

/-- At fraction 1 every row of `data` carrying the sampled relation is
drawn into the frame. -/
theorem relStep_full {sampler : Sampler} (hfull : SamplerFull sampler)
    (rel : String) (data : List Row) (s : RState) :
    ∀ r ∈ data, r.2.relation = rel → r ∈ (relStep sampler 1 rel data s).1 := by
  intro r hr hrel
  apply hfull s (data.filter fun r2 => r2.2.relation == rel) r
  exact List.mem_filter.mpr ⟨hr, by simpa using hrel⟩

/-! ## Lemmas about one round of the splitter -/

/-- Every row of a round's frame comes from `data` and has one of the
round's relation types. -/
theorem roundStep_frame_mem {sampler : Sampler} (hsub : SamplerSubset sampler)
    (frac : ℚ) :
    ∀ (rels : List String) (data : List Row) (s : RState),
      ∀ r ∈ (roundStep sampler frac rels data s).1,
        r ∈ data ∧ r.2.relation ∈ rels := by
  intro rels
  induction rels with
  | nil => intro data s r hr; cases hr
  | cons rel rest ih =>
    intro data s r hr
    rcases List.mem_append.mp hr with h | h
    · obtain ⟨hd, hrel⟩ := relStep_frame_mem hsub frac rel data s r h
      exact ⟨hd, hrel ▸ List.mem_cons_self rel rest⟩
    · obtain ⟨hd, hrel⟩ := ih _ _ r h
      exact ⟨(relStep_rem_sublist sampler frac rel data s).mem hd,
        List.mem_cons_of_mem rel hrel⟩

/-- The rows remaining after a round are a sublist of `data`. -/
theorem roundStep_rem_sublist (sampler : Sampler) (frac : ℚ) :
    ∀ (rels : List String) (data : List Row) (s : RState),
      (roundStep sampler frac rels data s).2.1.Sublist data := by
  intro rels
  induction rels with
  | nil => intro data s; exact List.Sublist.refl data
  | cons rel rest ih =>
    intro data s
    exact (ih _ _).trans (relStep_rem_sublist sampler frac rel data s)

/-- No row is both in a round's frame and among its remaining rows. -/
theorem roundStep_frame_not_rem (sampler : Sampler) (frac : ℚ) :
    ∀ (rels : List String) (data : List Row) (s : RState),
      ∀ r ∈ (roundStep sampler frac rels data s).1,
        r ∉ (roundStep sampler frac rels data s).2.1 := by
  intro rels
  induction rels with
  | nil => intro data s r hr; cases hr
  | cons rel rest ih =>
    intro data s r hr hrem
    rcases List.mem_append.mp hr with h | h
    · exact relStep_frame_not_rem sampler frac rel data s r h
        ((roundStep_rem_sublist sampler frac rest _ _).mem hrem)
    · exact ih _ _ r h hrem

/-- With distinct pandas indices, every row of `data` ends the round
either in the frame or among the remaining rows. -/
theorem roundStep_cover {sampler : Sampler} (hsub : SamplerSubset sampler)
    (frac : ℚ) :
    ∀ (rels : List String) (data : List Row) (s : RState),
      (data.map Prod.fst).Nodup →
        ∀ r ∈ data, r ∈ (roundStep sampler frac rels data s).1 ∨
          r ∈ (roundStep sampler frac rels data s).2.1 := by
  intro rels
  induction rels with
  | nil => intro data s _ r hr; exact Or.inr hr
  | cons rel rest ih =>
    intro data s hidx r hr
    by_cases hin : r ∈ (relStep sampler frac rel data s).1
    · exact Or.inl (List.mem_append_left _ hin)
    · have hr1 := relStep_not_frame_rem hsub frac rel data s hidx r hr hin
      have hidx1 : ((relStep sampler frac rel data s).2.1.map Prod.fst).Nodup :=
        hidx.sublist ((relStep_rem_sublist sampler frac rel data s).map Prod.fst)
      rcases ih _ _ hidx1 r hr1 with h | h
      · exact Or.inl (List.mem_append_right _ h)
      · exact Or.inr h

/-- At fraction 1 (the test round), every row of `data` whose relation
type occurs among `rels` is drawn into the frame. -/
theorem roundStep_full {sampler : Sampler} (hsub : SamplerSubset sampler)
    (hfull : SamplerFull sampler) :
    ∀ (rels : List String) (data : List Row) (s : RState),
      (data.map Prod.fst).Nodup →
        ∀ r ∈ data, r.2.relation ∈ rels →
          r ∈ (roundStep sampler 1 rels data s).1 := by
  intro rels
  induction rels with
  | nil => intro data s _ r _ hrel; cases hrel
  | cons rel rest ih =>
    intro data s hidx r hr hrel
    by_cases hin : r ∈ (relStep sampler 1 rel data s).1
    · exact List.mem_append_left _ hin
    · rcases List.mem_cons.mp hrel with heq | hmem
      · exact absurd (relStep_full hfull rel data s r hr heq) hin
      · have hr1 := relStep_not_frame_rem hsub 1 rel data s hidx r hr hin
        have hidx1 : ((relStep sampler 1 rel data s).2.1.map Prod.fst).Nodup :=
          hidx.sublist ((relStep_rem_sublist sampler 1 rel data s).map Prod.fst)
        exact List.mem_append_right _ (ih _ _ hidx1 r hr1 hmem)

/-! ## Lemmas about deduplication and relation extraction -/

/-- Deduplication keeps a subsequence of the input rows. -/
theorem dropDupAux_sublist (seen : List Edge) :
    ∀ l : List Row, (dropDupAux seen l).Sublist l := by
  intro l
  induction l generalizing seen with
  | nil => exact List.Sublist.refl []
  | cons r rs ih =>
    by_cases h : r.2 ∈ seen
    · simp only [dropDupAux, if_pos h]
      exact (ih seen).cons r
    · simp only [dropDupAux, if_neg h]
      exact (ih (r.2 :: seen)).cons₂ r

/-- A kept row's edge value was not among the already-seen values. -/
theorem snd_not_seen_of_mem_dropDupAux (seen : List Edge) :
    ∀ l : List Row, ∀ r ∈ dropDupAux seen l, r.2 ∉ seen := by
  intro l
  induction l generalizing seen with
  | nil => intro r hr; cases hr
  | cons a rs ih =>
    intro r hr
    by_cases h : a.2 ∈ seen
    · simp only [dropDupAux, if_pos h] at hr
      exact ih seen r hr
    · simp only [dropDupAux, if_neg h] at hr
      rcases List.mem_cons.mp hr with rfl | hr
      · exact h
      · intro hmem
        exact ih (a.2 :: seen) r hr (List.mem_cons_of_mem a.2 hmem)

/-- After deduplication the edge values are pairwise distinct. -/
theorem nodup_snd_dropDupAux (seen : List Edge) :
    ∀ l : List Row, ((dropDupAux seen l).map Prod.snd).Nodup := by
  intro l
  induction l generalizing seen with
  | nil => exact List.nodup_nil
  | cons a rs ih =>
    by_cases h : a.2 ∈ seen
    · simpa only [dropDupAux, if_pos h] using ih seen
    · simp only [dropDupAux, if_neg h, List.map_cons, List.nodup_cons]
      refine ⟨?_, ih (a.2 :: seen)⟩
      intro hmem
      obtain ⟨r, hr, hsnd⟩ := List.mem_map.mp hmem
      exact snd_not_seen_of_mem_dropDupAux (a.2 :: seen) rs r hr
        (hsnd ▸ List.mem_cons_self a.2 seen)

/-- Deduplication loses no edge value that was not already seen. -/
theorem mem_snd_dropDupAux (seen : List Edge) :
    ∀ l : List Row, ∀ e : Edge, e ∈ l.map Prod.snd → e ∉ seen →
      e ∈ (dropDupAux seen l).map Prod.snd := by
  intro l
  induction l generalizing seen with
  | nil => intro e he _; cases he
  | cons a rs ih =>
    intro e he hseen
    rcases List.mem_cons.mp he with rfl | he
    · by_cases h : a.2 ∈ seen
      · exact absurd h hseen
      · simp only [dropDupAux, if_neg h, List.map_cons]
        exact List.mem_cons_self a.2 _
    · by_cases h : a.2 ∈ seen
      · simp only [dropDupAux, if_pos h]
        exact ih seen e he hseen
      · simp only [dropDupAux, if_neg h, List.map_cons]
        by_cases heq : e = a.2
        · exact heq ▸ List.mem_cons_self a.2 _
        · refine List.mem_cons_of_mem a.2 (ih (a.2 :: seen) e he ?_)
          intro hmem
          rcases List.mem_cons.mp hmem with h2 | h2
          · exact heq h2
          · exact hseen h2

/-- Every value produced by `Series.unique()` occurs in the series. -/
theorem mem_of_mem_uniqueFirstAux (seen : List String) :
    ∀ l : List String, ∀ x ∈ uniqueFirstAux seen l, x ∈ l := by
  intro l
  induction l generalizing seen with
  | nil => intro x hx; cases hx
  | cons a xs ih =>
    intro x hx
    by_cases h : a ∈ seen
    · simp only [uniqueFirstAux, if_pos h] at hx
      exact List.mem_cons_of_mem a (ih seen x hx)
    · simp only [uniqueFirstAux, if_neg h] at hx
      rcases List.mem_cons.mp hx with rfl | hx
      · exact List.mem_cons_self x xs
      · exact List.mem_cons_of_mem a (ih (a :: seen) x hx)

/-- Every unseen value of the series survives `Series.unique()`. -/
theorem mem_uniqueFirstAux_of_mem (seen : List String) :
    ∀ l : List String, ∀ x ∈ l, x ∉ seen → x ∈ uniqueFirstAux seen l := by
  intro l
  induction l generalizing seen with
  | nil => intro x hx; cases hx
  | cons a xs ih =>
    intro x hx hseen
    rcases List.mem_cons.mp hx with rfl | hx
    · by_cases h : x ∈ seen
      · exact absurd h hseen
      · simp only [uniqueFirstAux, if_neg h]
        exact List.mem_cons_self x _
    · by_cases h : a ∈ seen
      · simp only [uniqueFirstAux, if_pos h]
        exact ih seen x hx hseen
      · simp only [uniqueFirstAux, if_neg h]
        by_cases heq : x = a
        · exact heq ▸ List.mem_cons_self a _
        · refine List.mem_cons_of_mem a (ih (a :: seen) x hx ?_)
          intro hmem
          rcases List.mem_cons.mp hmem with h2 | h2
          · exact heq h2
          · exact hseen h2

/-- The sorted unique relation list contains exactly the relation types
of the input edgelist. -/
theorem mem_unique_relations (edgelist : List Row) (rel : String) :
    rel ∈ unique_relations edgelist ↔
      rel ∈ edgelist.map fun r => r.2.relation := by
  unfold unique_relations
  rw [(List.perm_insertionSort _ _).mem_iff]
  constructor
  · exact mem_of_mem_uniqueFirstAux [] _ rel
  · intro h
    exact mem_uniqueFirstAux_of_mem [] _ rel h (List.not_mem_nil rel)

/-- The relation types are iterated in sorted (string) order. -/
theorem sorted_unique_relations (edgelist : List Row) :
    List.Sorted (fun a b : String => a ≤ b) (unique_relations edgelist) := by
  haveI : IsTotal String (fun a b : String => a ≤ b) := ⟨fun a b => le_total a b⟩
  haveI : IsTrans String (fun a b : String => a ≤ b) :=
    ⟨fun _ _ _ h1 h2 => le_trans h1 h2⟩
  exact List.sorted_insertionSort _ _

/-! ## Row-level facts about the three chained sampling rounds -/

/-- The three rounds of `_weighted_splitter`, run over any relation list
covering the data and any two fractions: each round's frame is drawn from
the deduplicated data, the frames are pairwise disjoint row sets, and —
because the test round samples with fraction 1 — every row lands in one
of the three frames. -/
theorem splitter_rounds_spec (sampler : Sampler)
    (hsub : SamplerSubset sampler) (hfull : SamplerFull sampler)
    (rels : List String) (d0 : List Row) (s0 : RState) (f1 f2 : ℚ)
    (hidx : (d0.map Prod.fst).Nodup)
    (hrels : ∀ r ∈ d0, r.2.relation ∈ rels) :
    ∀ R1 R2 R3 : List Row × List Row × RState,
      R1 = roundStep sampler f1 rels d0 s0 →
      R2 = roundStep sampler f2 rels R1.2.1 R1.2.2 →
      R3 = roundStep sampler 1 rels R2.2.1 R2.2.2 →
      (∀ r ∈ R1.1, r ∈ d0) ∧ (∀ r ∈ R2.1, r ∈ d0) ∧ (∀ r ∈ R3.1, r ∈ d0) ∧
        (∀ r : Row, r ∈ R1.1 → r ∈ R2.1 → False) ∧
        (∀ r : Row, r ∈ R1.1 → r ∈ R3.1 → False) ∧
        (∀ r : Row, r ∈ R2.1 → r ∈ R3.1 → False) ∧
        (∀ r ∈ d0, r ∉ R1.1 → r ∉ R2.1 → r ∈ R3.1) := by
  rintro R1 R2 R3 rfl rfl rfl
  have hrem1 := roundStep_rem_sublist sampler f1 rels d0 s0
  have hidx1 : ((roundStep sampler f1 rels d0 s0).2.1.map Prod.fst).Nodup :=
    hidx.sublist (hrem1.map Prod.fst)
  have hrem2 := roundStep_rem_sublist sampler f2 rels
    (roundStep sampler f1 rels d0 s0).2.1 (roundStep sampler f1 rels d0 s0).2.2
  have hidx2 := hidx1.sublist (hrem2.map Prod.fst)
  have hin1 : ∀ r ∈ (roundStep sampler f1 rels d0 s0).1, r ∈ d0 :=
    fun r hr => (roundStep_frame_mem hsub f1 rels d0 s0 r hr).1
  have hin2 : ∀ r ∈ (roundStep sampler f2 rels
      (roundStep sampler f1 rels d0 s0).2.1
      (roundStep sampler f1 rels d0 s0).2.2).1,
      r ∈ (roundStep sampler f1 rels d0 s0).2.1 :=
    fun r hr => (roundStep_frame_mem hsub f2 rels _ _ r hr).1
  have hin3 : ∀ r ∈ (roundStep sampler 1 rels
      (roundStep sampler f2 rels (roundStep sampler f1 rels d0 s0).2.1
        (roundStep sampler f1 rels d0 s0).2.2).2.1
      (roundStep sampler f2 rels (roundStep sampler f1 rels d0 s0).2.1
        (roundStep sampler f1 rels d0 s0).2.2).2.2).1,
      r ∈ (roundStep sampler f2 rels (roundStep sampler f1 rels d0 s0).2.1
        (roundStep sampler f1 rels d0 s0).2.2).2.1 :=
    fun r hr => (roundStep_frame_mem hsub 1 rels _ _ r hr).1
  refine ⟨hin1, fun r hr => hrem1.subset (hin2 r hr),
    fun r hr => hrem1.subset (hrem2.subset (hin3 r hr)), ?_, ?_, ?_, ?_⟩
  · intro r h1 h2
    exact roundStep_frame_not_rem sampler f1 rels d0 s0 r h1 (hin2 r h2)
  · intro r h1 h3
    exact roundStep_frame_not_rem sampler f1 rels d0 s0 r h1
      (hrem2.subset (hin3 r h3))
  · intro r h2 h3
    exact roundStep_frame_not_rem sampler f2 rels _ _ r h2 (hin3 r h3)
  · intro r hr hn1 hn2
    have hr1 : r ∈ (roundStep sampler f1 rels d0 s0).2.1 :=
      (roundStep_cover hsub f1 rels d0 s0 hidx r hr).resolve_left hn1
    have hr2 : r ∈ (roundStep sampler f2 rels
        (roundStep sampler f1 rels d0 s0).2.1
        (roundStep sampler f1 rels d0 s0).2.2).2.1 :=
      (roundStep_cover hsub f2 rels _ _ hidx1 r hr1).resolve_left hn2
    exact roundStep_full hsub hfull rels _ _ hidx2 r hr2
      (hrels r (hrem1.subset (hrem2.subset hr2)))

/-! ## Main theorems about the splitter -/

/-- C1: for every edgelist and fractions with `0 < train_size < 1` and
`0 < validation_size < 1 - train_size`, the three edge sets returned by
`_weighted_splitter` are pairwise disjoint and their union is exactly
the input edgelist after exact deduplication of identical
(source, relation, target) rows. -/
theorem weighted_splitter_disjoint_union_spec (sampler : Sampler) (s0 : RState)
    (edgelist : List Row) (train_size validation_size : ℚ)
    (hsub : SamplerSubset sampler) (hfull : SamplerFull sampler)
    (hidx : (edgelist.map Prod.fst).Nodup)
    (_ht0 : 0 < train_size) (_ht1 : train_size < 1)
    (_hv0 : 0 < validation_size) (_hv1 : validation_size < 1 - train_size) :
    ((weighted_splitter sampler s0 edgelist train_size validation_size).1.map
        Prod.snd).Disjoint
      ((weighted_splitter sampler s0 edgelist train_size validation_size).2.1.map
        Prod.snd) ∧
      ((weighted_splitter sampler s0 edgelist train_size validation_size).1.map
        Prod.snd).Disjoint
        ((weighted_splitter sampler s0 edgelist train_size validation_size).2.2.map
          Prod.snd) ∧
      ((weighted_splitter sampler s0 edgelist train_size validation_size).2.1.map
        Prod.snd).Disjoint
        ((weighted_splitter sampler s0 edgelist train_size validation_size).2.2.map
          Prod.snd) ∧
      (∀ e : Edge,
        (e ∈ (weighted_splitter sampler s0 edgelist train_size
              validation_size).1.map Prod.snd ∨
          e ∈ (weighted_splitter sampler s0 edgelist train_size
              validation_size).2.1.map Prod.snd ∨
          e ∈ (weighted_splitter sampler s0 edgelist train_size
              validation_size).2.2.map Prod.snd) ↔
          e ∈ (dropDuplicates edgelist).map Prod.snd) ∧
      (∀ e : Edge,
        e ∈ (dropDuplicates edgelist).map Prod.snd ↔
          e ∈ edgelist.map Prod.snd) := by
  obtain ⟨ha, hb, hc, hd, he, hf, hg⟩ :=
    splitter_rounds_spec sampler hsub hfull (unique_relations edgelist)
      (dropDuplicates edgelist) s0 train_size
      (validation_size / (1 - train_size))
      (hidx.sublist ((dropDupAux_sublist [] edgelist).map Prod.fst))
      (fun r hr => (mem_unique_relations edgelist r.2.relation).mpr
        (List.mem_map_of_mem _ ((dropDupAux_sublist [] edgelist).subset hr)))
      _ _ _ rfl rfl rfl
  have hnd : ((dropDuplicates edgelist).map Prod.snd).Nodup :=
    nodup_snd_dropDupAux [] edgelist
  have hinj := List.inj_on_of_nodup_map hnd
  have eq1 : (weighted_splitter sampler s0 edgelist train_size
      validation_size).1 =
      (roundStep sampler train_size (unique_relations edgelist)
        (dropDuplicates edgelist) s0).1 := rfl
  have eq2 : (weighted_splitter sampler s0 edgelist train_size
      validation_size).2.1 =
      (roundStep sampler (validation_size / (1 - train_size))
        (unique_relations edgelist)
        (roundStep sampler train_size (unique_relations edgelist)
          (dropDuplicates edgelist) s0).2.1
        (roundStep sampler train_size (unique_relations edgelist)
          (dropDuplicates edgelist) s0).2.2).1 := rfl
  have eq3 : (weighted_splitter sampler s0 edgelist train_size
      validation_size).2.2 =
      (roundStep sampler 1 (unique_relations edgelist)
        (roundStep sampler (validation_size / (1 - train_size))
          (unique_relations edgelist)
          (roundStep sampler train_size (unique_relations edgelist)
            (dropDuplicates edgelist) s0).2.1
          (roundStep sampler train_size (unique_relations edgelist)
            (dropDuplicates edgelist) s0).2.2).2.1
        (roundStep sampler (validation_size / (1 - train_size))
          (unique_relations edgelist)
          (roundStep sampler train_size (unique_relations edgelist)
            (dropDuplicates edgelist) s0).2.1
          (roundStep sampler train_size (unique_relations edgelist)
            (dropDuplicates edgelist) s0).2.2).2.2).1 := rfl
  refine ⟨?_, ?_, ?_, ?_, ?_⟩
  · rw [eq1, eq2]
    intro x hx1 hx2
    obtain ⟨a, haR, ha2⟩ := List.mem_map.mp hx1
    obtain ⟨b, hbR, hb2⟩ := List.mem_map.mp hx2
    have hab : a = b := hinj (ha a haR) (hb b hbR) (ha2.trans hb2.symm)
    subst hab
    exact hd a haR hbR
  · rw [eq1, eq3]
    intro x hx1 hx2
    obtain ⟨a, haR, ha2⟩ := List.mem_map.mp hx1
    obtain ⟨b, hbR, hb2⟩ := List.mem_map.mp hx2
    have hab : a = b := hinj (ha a haR) (hc b hbR) (ha2.trans hb2.symm)
    subst hab
    exact he a haR hbR
  · rw [eq2, eq3]
    intro x hx1 hx2
    obtain ⟨a, haR, ha2⟩ := List.mem_map.mp hx1
    obtain ⟨b, hbR, hb2⟩ := List.mem_map.mp hx2
    have hab : a = b := hinj (hb a haR) (hc b hbR) (ha2.trans hb2.symm)
    subst hab
    exact hf a haR hbR
  · rw [eq1, eq2, eq3]
    intro x
    constructor
    · rintro (hx | hx | hx)
      · obtain ⟨a, haR, rfl⟩ := List.mem_map.mp hx
        exact List.mem_map_of_mem Prod.snd (ha a haR)
      · obtain ⟨a, haR, rfl⟩ := List.mem_map.mp hx
        exact List.mem_map_of_mem Prod.snd (hb a haR)
      · obtain ⟨a, haR, rfl⟩ := List.mem_map.mp hx
        exact List.mem_map_of_mem Prod.snd (hc a haR)
    · intro hx
      obtain ⟨r, hr, rfl⟩ := List.mem_map.mp hx
      rw [or_iff_not_imp_left, or_iff_not_imp_left]
      intro hn1 hn2
      exact List.mem_map_of_mem Prod.snd
        (hg r hr (fun h => hn1 (List.mem_map_of_mem Prod.snd h))
          (fun h => hn2 (List.mem_map_of_mem Prod.snd h)))
  · intro x
    constructor
    · intro hx
      obtain ⟨r, hr, rfl⟩ := List.mem_map.mp hx
      exact List.mem_map_of_mem Prod.snd
        ((dropDupAux_sublist [] edgelist).subset hr)
    · intro hx
      exact mem_snd_dropDupAux [] edgelist x hx (List.not_mem_nil x)

/-- C2: in `_weighted_splitter` the validation round samples with the
renormalized fraction `validation_size / (1 - train_size)` of the rows
remaining after the training round, and — the test round sampling with
fraction 1 — every deduplicated edge assigned to neither train nor
validation is assigned to test. -/
theorem weighted_splitter_renormalized_total_coverage (sampler : Sampler)
    (s0 : RState) (edgelist : List Row) (train_size validation_size : ℚ)
    (hsub : SamplerSubset sampler) (hfull : SamplerFull sampler)
    (hidx : (edgelist.map Prod.fst).Nodup) :
    ((weighted_splitter sampler s0 edgelist train_size validation_size).2.1 =
      (roundStep sampler (validation_size / (1 - train_size))
        (unique_relations edgelist)
        (roundStep sampler train_size (unique_relations edgelist)
          (dropDuplicates edgelist) s0).2.1
        (roundStep sampler train_size (unique_relations edgelist)
          (dropDuplicates edgelist) s0).2.2).1) ∧
      ∀ r ∈ dropDuplicates edgelist,
        r ∉ (weighted_splitter sampler s0 edgelist train_size
            validation_size).1 →
        r ∉ (weighted_splitter sampler s0 edgelist train_size
            validation_size).2.1 →
        r ∈ (weighted_splitter sampler s0 edgelist train_size
            validation_size).2.2 := by
  obtain ⟨-, -, -, -, -, -, hg⟩ :=
    splitter_rounds_spec sampler hsub hfull (unique_relations edgelist)
      (dropDuplicates edgelist) s0 train_size
      (validation_size / (1 - train_size))
      (hidx.sublist ((dropDupAux_sublist [] edgelist).map Prod.fst))
      (fun r hr => (mem_unique_relations edgelist r.2.relation).mpr
        (List.mem_map_of_mem _ ((dropDupAux_sublist [] edgelist).subset hr)))
      _ _ _ rfl rfl rfl
  exact ⟨rfl, hg⟩

/-- C4: two runs of `_weighted_splitter` with the same generator state
(seed) and the same input produce identical train/validation/test
assignments, and the relation types are iterated in sorted order — the
sorted list contains exactly the input's relation types, so the sequence
of sampling calls is the same in both runs. -/
theorem weighted_splitter_reproducible_sorted (sampler : Sampler)
    (s1 s2 : RState) (el1 el2 : List Row) (t1 t2 v1 v2 : ℚ)
    (hs : s1 = s2) (hel : el1 = el2) (ht : t1 = t2) (hv : v1 = v2) :
    weighted_splitter sampler s1 el1 t1 v1 =
        weighted_splitter sampler s2 el2 t2 v2 ∧
      List.Sorted (fun a b : String => a ≤ b) (unique_relations el1) ∧
      ∀ rel : String,
        rel ∈ unique_relations el1 ↔ rel ∈ el1.map fun r => r.2.relation := by
  subst hs
  subst hel
  subst ht
  subst hv
  exact ⟨rfl, sorted_unique_relations el1, fun rel => mem_unique_relations el1 rel⟩

/-! ## Concrete sampler facts and witnesses -/

/-- `fullSampler` satisfies the subset contract. -/
theorem fullSampler_subset : SamplerSubset fullSampler :=
  fun _ _ _ _ hr => hr

/-- `fullSampler` satisfies the fraction-1 contract. -/
theorem fullSampler_full : SamplerFull fullSampler :=
  fun _ _ _ hr => hr

/-- `lazySampler` satisfies the subset contract. -/
theorem lazySampler_subset : SamplerSubset lazySampler := by
  intro s pool f r hr
  by_cases h : f = 1
  · simpa [lazySampler, h] using hr
  · simp [lazySampler, h] at hr

/-- `lazySampler` satisfies the fraction-1 contract. -/
theorem lazySampler_full : SamplerFull lazySampler := by
  intro s pool r hr
  simpa [lazySampler] using hr

/-- At a fraction other than 1, a `lazySampler` round draws nothing and
leaves the data unchanged. -/
theorem lazySampler_roundStep (frac : ℚ) (h : ¬frac = 1) :
    ∀ (rels : List String) (data : List Row) (s : RState),
      (roundStep lazySampler frac rels data s).1 = [] ∧
        (roundStep lazySampler frac rels data s).2.1 = data := by
  intro rels
  induction rels with
  | nil => intro data s; exact ⟨rfl, rfl⟩
  | cons rel rest ih =>
    intro data s
    have htemp : (relStep lazySampler frac rel data s).1 = [] := by
      simp [relStep, lazySampler, h]
    have hdata : (relStep lazySampler frac rel data s).2.1 = data := by
      simp [relStep, lazySampler, h]
    constructor
    · simp only [roundStep]
      rw [htemp, hdata, List.nil_append]
      exact (ih data _).1
    · simp only [roundStep]
      rw [hdata]
      exact (ih data _).2

/-- Witness for C1: at the concrete two-relation edgelist, fractions
1/2 and 1/4, and the full-drawing sampler, train and validation edge
sets are disjoint. -/
theorem weighted_splitter_disjoint_union_spec_witness :
    ((weighted_splitter fullSampler 0 demoEdges (1 / 2) (1 / 4)).1.map
        Prod.snd).Disjoint
      ((weighted_splitter fullSampler 0 demoEdges (1 / 2) (1 / 4)).2.1.map
        Prod.snd) :=
  (weighted_splitter_disjoint_union_spec fullSampler 0 demoEdges (1 / 2) (1 / 4)
    fullSampler_subset fullSampler_full (by decide) (by norm_num) (by norm_num)
    (by norm_num) (by norm_num)).1

/-- Witness for C2: with the lazy sampler (which draws only at
fraction 1), a concrete row reaches neither train nor validation and is
assigned to test. -/
theorem weighted_splitter_renormalized_total_coverage_witness :
    (0, Edge.mk "a" "r1" "b") ∈
      (weighted_splitter lazySampler 0 demoEdges (1 / 2) (1 / 4)).2.2 := by
  refine (weighted_splitter_renormalized_total_coverage lazySampler 0 demoEdges
      (1 / 2) (1 / 4) lazySampler_subset lazySampler_full (by decide)).2
    (0, Edge.mk "a" "r1" "b") (by decide) ?_ ?_
  · have h := (lazySampler_roundStep (1 / 2) (by norm_num)
      (unique_relations demoEdges) (dropDuplicates demoEdges) 0).1
    rw [show (weighted_splitter lazySampler 0 demoEdges (1 / 2) (1 / 4)).1 =
        (roundStep lazySampler (1 / 2) (unique_relations demoEdges)
          (dropDuplicates demoEdges) 0).1 from rfl, h]
    exact List.not_mem_nil _
  · have h := (lazySampler_roundStep ((1 : ℚ) / 4 / (1 - 1 / 2)) (by norm_num)
      (unique_relations demoEdges)
      (roundStep lazySampler (1 / 2) (unique_relations demoEdges)
        (dropDuplicates demoEdges) 0).2.1
      (roundStep lazySampler (1 / 2) (unique_relations demoEdges)
        (dropDuplicates demoEdges) 0).2.2).1
    rw [show (weighted_splitter lazySampler 0 demoEdges (1 / 2) (1 / 4)).2.1 =
        (roundStep lazySampler ((1 : ℚ) / 4 / (1 - 1 / 2))
          (unique_relations demoEdges)
          (roundStep lazySampler (1 / 2) (unique_relations demoEdges)
            (dropDuplicates demoEdges) 0).2.1
          (roundStep lazySampler (1 / 2) (unique_relations demoEdges)
            (dropDuplicates demoEdges) 0).2.2).1 from rfl, h]
    exact List.not_mem_nil _

/-- Witness for C4: the reproducibility and sortedness statement at the
concrete edgelist and fractions. -/
theorem weighted_splitter_reproducible_sorted_witness :
    weighted_splitter fullSampler 0 demoEdges (1 / 2) (1 / 4) =
        weighted_splitter fullSampler 0 demoEdges (1 / 2) (1 / 4) ∧
      List.Sorted (fun a b : String => a ≤ b) (unique_relations demoEdges) ∧
      ∀ rel : String,
        rel ∈ unique_relations demoEdges ↔
          rel ∈ demoEdges.map fun r => r.2.relation :=
  weighted_splitter_reproducible_sorted fullSampler 0 0 demoEdges demoEdges
    (1 / 2) (1 / 2) (1 / 4) (1 / 4) rfl rfl rfl rfl

end CLEPP
